import Mathlib

/-!
Verification of the `fast_grow_server` ingestion pipeline.

This file gives a shallow embedding of the growing-run ingestion pipeline of
`fast_grow/tool_wrappers/fast_grow_wrapper.py` and the `grow` celery task of
`fast_grow/tasks.py`, and proves or refutes the frozen specification claims
about it.

Modelling conventions:
* Python strings are modelled as `List Char`; concrete inputs are written with
  `String.data` on string literals.
* `str.split(sep)` (nonempty `sep`), `str.replace(old, '')`, `str.strip()`,
  `str.upper()` and slicing `[:n]` are modelled by executable functions below,
  faithful to CPython semantics on the ASCII fragment exercised by the
  pipeline (record texts are ASCII-framed SDF data).
* `float(...)` is modelled by `pyParseFloat`, covering CPython decimal
  literals (optional sign, digits with optional point, optional exponent);
  exotic lexical forms (`inf`, `nan`, underscore digit separators) are outside
  the modelled fragment and are never produced by the pipeline inputs the
  claims concern.  Parsed values are represented exactly as scaled decimals
  `mantissa * 10 ^ exponent` (`PyFloat`), since the pipeline performs no
  arithmetic on scores, only extraction and storage.
* The external process and filesystem are modelled by an environment `Env`
  giving the directory listing observed at each executed iteration of the
  polling loop, the listing observed at the final drain pass, and the
  process exit code.
* The database is modelled as the list of committed per-file batches; Django
  `transaction.atomic()` rollback is modelled by discarding the batches of a
  failing `process_hits` call while keeping the in-memory seen-set updates
  that happened before the failure, exactly as in the source.
-/

/-! ### Python string primitives -/

/-- CPython `str.strip()` whitespace set (ASCII fragment): space, tab,
newline, carriage return, vertical tab, form feed. -/
def pyWs (c : Char) : Bool :=
  c == ' ' || c == '\t' || c == '\n' || c == '\r' || c == '\x0b' || c == '\x0c'

/-- CPython `str.strip()`: drop whitespace from both ends. -/
def pyStrip (s : List Char) : List Char :=
  ((s.dropWhile pyWs).reverse.dropWhile pyWs).reverse

/-- `leadsWith pat s` is true when `pat` occurs at the very start of `s`. -/
def leadsWith : List Char → List Char → Bool
  | [], _ => true
  | _ :: _, [] => false
  | p :: ps, c :: cs => p == c && leadsWith ps cs

/-- Locate the first occurrence of `sep` in `s`: returns the text before the
occurrence and the text after it. -/
def splitFirst (sep : List Char) : List Char → Option (List Char × List Char)
  | [] => none
  | c :: rest =>
    if leadsWith sep (c :: rest) then some ([], (c :: rest).drop sep.length)
    else
      match splitFirst sep rest with
      | none => none
      | some (pre, post) => some (c :: pre, post)

/-- Fuel-driven worker for `splitOnList`; the fuel bounds the number of
separator occurrences, which is at most the length of the string. -/
def splitIter (sep : List Char) : Nat → List Char → List (List Char)
  | 0, s => [s]
  | fuel + 1, s =>
    match splitFirst sep s with
    | none => [s]
    | some (pre, post) => pre :: splitIter sep fuel post

/-- CPython `s.split(sep)` for a nonempty separator `sep`: the list of
fragments between the leftmost non-overlapping occurrences of `sep`. -/
def splitOnList (sep s : List Char) : List (List Char) :=
  splitIter sep s.length s

/-- Fuel-driven worker for `removeAll`. -/
def removeIter (pat : List Char) : Nat → List Char → List Char
  | 0, s => s
  | fuel + 1, s =>
    match s with
    | [] => []
    | c :: rest =>
      if leadsWith pat (c :: rest) then removeIter pat fuel ((c :: rest).drop pat.length)
      else c :: removeIter pat fuel rest

/-- CPython `s.replace(pat, '')` for a nonempty `pat`: delete the leftmost
non-overlapping occurrences of `pat`. -/
def removeAll (pat s : List Char) : List Char :=
  if pat.isEmpty then s else removeIter pat s.length s

/-- Join fragments with a separator; the inverse of `splitOnList`, mirroring
CPython `sep.join(pieces)`. -/
def joinSep (sep : List Char) : List (List Char) → List Char
  | [] => []
  | [x] => x
  | x :: y :: rest => x ++ sep ++ joinSep sep (y :: rest)

/-- CPython `str.upper()` on the ASCII fragment: uppercase each character. -/
def pyUpper (s : List Char) : List Char :=
  s.map Char.toUpper

/-- Numeric value of a digit string. -/
def natOfDigits (l : List Char) : Nat :=
  l.foldl (fun n c => 10 * n + (c.toNat - 48)) 0

/-- Exact value of a CPython float literal: `mantissa * 10 ^ exponent`.
Stored unreduced so that all pipeline computations are kernel-executable;
the pipeline only extracts and stores scores, never computes with them, so
every comparison made by the claims is between outputs of the same parser
and representation equality is the right notion. -/
structure PyFloat where
  mantissa : Int
  exponent : Int
deriving DecidableEq

/-- Exponent-part helper for `pyParseFloat`: `mant` is the signed integer
mantissa already parsed, `e0` the exponent contributed by the decimal point,
`rest` the remaining characters. -/
def pyParseExp (mant : Int) (e0 : Int) (rest : List Char) : Option PyFloat :=
  match rest with
  | [] => some ⟨mant, e0⟩
  | e :: r =>
    if e == 'e' || e == 'E' then
      let (esgn, r2) : Int × List Char :=
        match r with
        | '+' :: t => (1, t)
        | '-' :: t => (-1, t)
        | t => (1, t)
      let eds := r2.takeWhile Char.isDigit
      if eds.isEmpty || !(r2.dropWhile Char.isDigit).isEmpty then none
      else some ⟨mant, e0 + esgn * (natOfDigits eds : Int)⟩
    else none

/-- CPython `float(s)` on the decimal-literal fragment: optional sign, digits
with an optional decimal point (at least one digit), optional exponent.
Returns `none` when `s` is not a valid lexical numeric literal (e.g. the
literal text `n/a`). -/
def pyParseFloat (s : List Char) : Option PyFloat :=
  let (sgn, rest) : Int × List Char :=
    match s with
    | '+' :: r => (1, r)
    | '-' :: r => (-1, r)
    | r => (1, r)
  let intPart := rest.takeWhile Char.isDigit
  let rest2 := rest.dropWhile Char.isDigit
  match rest2 with
  | '.' :: r3 =>
    let fracPart := r3.takeWhile Char.isDigit
    let rest4 := r3.dropWhile Char.isDigit
    if intPart.isEmpty && fracPart.isEmpty then none
    else
      pyParseExp (sgn * (natOfDigits (intPart ++ fracPart) : Int))
        (-(fracPart.length : Int)) rest4
  | _ =>
    if intPart.isEmpty then none
    else pyParseExp (sgn * (natOfDigits intPart : Int)) 0 rest2

deriving instance DecidableEq for Except

/-! ### Data model

`Status` mirrors `fast_grow.models.Status` as used by `tasks.py` and
described by the spec (PENDING, RUNNING, SUCCESS, FAILURE).  `Hit` mirrors
the fields of `fast_grow.models.Hit` that `add_hits` populates.  `Growing`
keeps only what the ingestion pipeline reads from the growing model: the
names of the ensemble complexes (`growing.ensemble.complex_set`), in
iteration order.  Argument-list construction and the external settings are
outside the ingestion model and outside every claim. -/

/-- Job status values written by the celery tasks. -/
inductive Status where
  | PENDING
  | RUNNING
  | SUCCESS
  | FAILURE
deriving DecidableEq

/-- Python exceptions that ingestion can raise: `ValueError` from a failed
`float(...)` cast (carrying the offending text) and `IndexError` from
`property_pair[1]` when a matching property block has no value part. -/
inductive PyError where
  | castError (value : List Char)
  | indexError
deriving DecidableEq

/-- Errors that abort a growing run: an ingestion exception, or
`subprocess.CalledProcessError` raised on a positive exit code (carrying the
exit code; stdout/stderr are `None` in the source since the process is
spawned without pipes). -/
inductive RunError where
  | ingest (e : PyError)
  | execution (code : Int)
deriving DecidableEq

/-- One persisted hit, as built by `FastGrowWrapper.add_hits`. -/
structure Hit where
  name : List Char
  score : Option PyFloat
  file_string : List Char
  file_type : List Char
  ensemble_scores : List (List Char × Option PyFloat)
deriving DecidableEq

/-- The part of the growing model the ingestion pipeline reads. -/
structure Growing where
  memberNames : List (List Char)
deriving DecidableEq

/-- A result file in the watched directory: its path and its contents. -/
structure File where
  path : List Char
  content : List Char
deriving DecidableEq

/-- Pipeline bookkeeping: the committed per-file batches, in commit order
(path of the source file paired with its hits), and the seen set, modelled
as the append-ordered list of paths added to the Python `set`. -/
structure LoopState where
  batches : List (List Char × List Hit)
  seen : List (List Char)
deriving DecidableEq

/-- The environment of one growing run: the directory listing observed at
each executed iteration of the polling loop, the listing observed at the
drain pass after process termination, and the process exit code.  (In the
source the loop body always executes at least once before the first poll;
environments with an empty `runListings` are a harmless superset.) -/
structure Env where
  runListings : List (List File)
  drainListing : List File
  returncode : Int
deriving DecidableEq

/-- Observable outcome of the `grow` celery task: the committed database
state, the error propagated to the task layer (re-raised after the final
status write), and the status written to the job. -/
structure Outcome where
  final : LoopState
  error : Option RunError
  status : Status
deriving DecidableEq

/-! ### The ingestion pipeline (`fast_grow_wrapper.py`) -/

namespace FastGrowWrapper

/-- The SDF record delimiter line `'$$$$\n'`. -/
def recordDelim : List Char := "$$$$\n".data

/-- The literal `'$$$$'` deleted inside `get_mol_string_prop`. -/
def dollars : List Char := "$$$$".data

/-- The property-block marker `'> <'`. -/
def blockMarker : List Char := "> <".data

/-- The key/value boundary `'>\n'` used by `get_mol_string_prop`. -/
def keyEnd : List Char := ">\n".data

/-- The line separator used by `get_mol_string_name`. -/
def newlineSep : List Char := "\n".data

/-- The primary score property key. -/
def scoreKey : List Char := "Score".data

/-- The constant format tag stored on every hit. -/
def sdfTag : List Char := "sdf".data

/-- `[m + '$$$$\n' for m in data.split('$$$$\n') if m.strip()]`. -/
def splitRecords (data : List Char) : List (List Char) :=
  ((splitOnList recordDelim data).filter
    (fun m => !(pyStrip m).isEmpty)).map (fun m => m ++ recordDelim)

/-- `mol_string.split('\n')[0].strip()`. -/
def get_mol_string_name (mol : List Char) : List Char :=
  pyStrip ((splitOnList newlineSep mol).headD [])

/-- The loop body of `get_mol_string_prop` over the fragments of
`mol_string.split('> <')`: for each fragment, delete `'$$$$'`, split at
`'>\n'`, strip each piece; skip the fragment unless piece 0 equals the
requested key; then return piece 1 (raising `IndexError` when there is no
piece 1, exactly as `property_pair[1]` would). -/
def propLoop (prop : List Char) : List (List Char) → Except PyError (Option (List Char))
  | [] => .ok none
  | el :: rest =>
    let pair := (splitOnList keyEnd (removeAll dollars el)).map pyStrip
    if pair.headD [] ≠ prop then propLoop prop rest
    else
      match pair with
      | _ :: v :: _ => .ok (some v)
      | _ => .error PyError.indexError

/-- `FastGrowWrapper.get_mol_string_prop(prop, mol_string)` without a cast:
`.ok none` when no block matches (absence is not an error). -/
def get_mol_string_prop (prop mol : List Char) : Except PyError (Option (List Char)) :=
  propLoop prop (splitOnList blockMarker mol)

/-- `FastGrowWrapper.get_mol_string_prop(prop, mol_string, cast_to=float)`:
the raw extraction followed by the `float` cast, which raises a cast error
on a value that is not a valid lexical numeric literal. -/
def get_mol_string_prop_float (prop mol : List Char) : Except PyError (Option PyFloat) :=
  match get_mol_string_prop prop mol with
  | .error e => .error e
  | .ok none => .ok none
  | .ok (some v) =>
    match pyParseFloat v with
    | none => .error (PyError.castError v)
    | some q => .ok (some q)

/-- The per-member score loop of `add_hits`: for each ensemble complex name
`n` (in iteration order), store under key `n` the float extracted with
property key `n.upper()`. -/
def scoresFor (mol : List Char) : List (List Char) → Except PyError (List (List Char × Option PyFloat))
  | [] => .ok []
  | n :: ns =>
    match get_mol_string_prop_float (pyUpper n) mol with
    | .error e => .error e
    | .ok v =>
      match scoresFor mol ns with
      | .error e => .error e
      | .ok t => .ok ((n, v) :: t)

/-- `ensemble_scores` of one record: populated only when
`growing.ensemble.complex_set.count() > 1`. -/
def ensembleScores (g : Growing) (mol : List Char) : Except PyError (List (List Char × Option PyFloat)) :=
  if 1 < g.memberNames.length then scoresFor mol g.memberNames else .ok []

/-- Build one `Hit` from one record string, in source order: name (truncated
to 254 characters when stored), primary score, ensemble scores. -/
def makeHit (g : Growing) (mol : List Char) : Except PyError Hit :=
  match get_mol_string_prop_float scoreKey mol with
  | .error e => .error e
  | .ok sc =>
    match ensembleScores g mol with
    | .error e => .error e
    | .ok es =>
      .ok { name := (get_mol_string_name mol).take 254
            score := sc
            file_string := mol
            file_type := sdfTag
            ensemble_scores := es }

/-- The record loop of `add_hits`: save a hit per record, stopping at the
first exception. -/
def hitsFor (g : Growing) : List (List Char) → Except PyError (List Hit)
  | [] => .ok []
  | m :: ms =>
    match makeHit g m with
    | .error e => .error e
    | .ok h =>
      match hitsFor g ms with
      | .error e => .error e
      | .ok t => .ok (h :: t)

/-- `FastGrowWrapper.add_hits(growing, hits_path)` on the file contents:
split into records and save one hit per record. -/
def add_hits (g : Growing) (content : List Char) : Except PyError (List Hit) :=
  hitsFor g (splitRecords content)

/-- The file loop inside the `transaction.atomic()` block of `process_hits`:
walk the directory listing, skip files already seen, otherwise run
`add_hits` and add the file to the seen set.  Returns the per-file batches
saved by the loop, the final seen set, and the exception if one was raised.
On an exception the batches accumulated so far are reported so the caller
can discard them (transaction rollback), while the seen-set additions made
before the failing file survive, as they do for the in-memory Python set. -/
def processFiles (g : Growing) : List File → List (List Char) →
    List (List Char × List Hit) × List (List Char) × Option PyError
  | [], seen => ([], seen, none)
  | f :: rest, seen =>
    if f.path ∈ seen then processFiles g rest seen
    else
      match add_hits g f.content with
      | .error e => ([], seen, some e)
      | .ok hits =>
        match processFiles g rest (seen ++ [f.path]) with
        | (bs, seen2, err) => ((f.path, hits) :: bs, seen2, err)

/-- `FastGrowWrapper.process_hits(growing, directory_path, seen_files)`: one
scan-and-ingest pass under a single `transaction.atomic()` block.  When the
loop raises, the whole pass's batches are rolled back (the committed
batches are unchanged) and the exception is reported; otherwise all the
pass's batches commit together. -/
def process_hits (g : Growing) (listing : List File) (st : LoopState) :
    LoopState × Option PyError :=
  match processFiles g listing st.seen with
  | (bs, seen2, none) => ({ batches := st.batches ++ bs, seen := seen2 }, none)
  | (_, seen2, some e) => ({ batches := st.batches, seen := seen2 }, some e)

/-- The polling loop of `FastGrowWrapper.grow`: one `process_hits` pass per
executed iteration, stopping at the first exception, which propagates. -/
def runCycles (g : Growing) : List (List File) → LoopState → LoopState × Option PyError
  | [], st => (st, none)
  | l :: ls, st =>
    match process_hits g l st with
    | (st2, none) => runCycles g ls st2
    | (st2, some e) => (st2, some e)

/-- The database and seen set at the start of a run. -/
def initState : LoopState := { batches := [], seen := [] }

/-- The ingestion part of `FastGrowWrapper.grow`: the polling loop followed
by the single post-termination `process_hits` pass (the drain). -/
def growIngest (g : Growing) (env : Env) : LoopState × Option PyError :=
  match runCycles g env.runListings initState with
  | (st, some e) => (st, some e)
  | (st, none) => process_hits g env.drainListing st

/-- `FastGrowWrapper.grow(growing)`: ingestion, then
`if process.returncode > 0: raise CalledProcessError(...)`. -/
def grow (g : Growing) (env : Env) : LoopState × Option RunError :=
  match growIngest g env with
  | (st, some e) => (st, some (RunError.ingest e))
  | (st, none) =>
    if 0 < env.returncode then (st, some (RunError.execution env.returncode))
    else (st, none)

end FastGrowWrapper

/-! ### The celery task (`tasks.py`) -/

namespace Tasks

/-- The `grow` celery task: run the wrapper; on normal return set status
SUCCESS and save; on any exception set status FAILURE, save, and re-raise
the original error. -/
def grow (g : Growing) (env : Env) : Outcome :=
  match FastGrowWrapper.grow g env with
  | (st, none) => { final := st, error := none, status := Status.SUCCESS }
  | (st, some e) => { final := st, error := some e, status := Status.FAILURE }

/-- The sequence of values assigned to `growing.status` (and saved) over the
course of one run of the `grow` task, in program order. -/
def statusWrites (g : Growing) (env : Env) : List Status :=
  [(Tasks.grow g env).status]

end Tasks

/-! ### Specification-side variants

These definitions follow the words of claims under comparison with the
source, for the refutation or amendment of those claims; they are not
translations of the source. -/

/-- The persistence granularity asserted by claim C2: the same file loop,
but each file's batch commits in its own transaction, so that on an
exception the batches of files fully processed earlier in the same pass
remain committed and only the failing file's batch is invisible. -/
def process_hits_perFile (g : Growing) (listing : List File) (st : LoopState) :
    LoopState × Option PyError :=
  match FastGrowWrapper.processFiles g listing st.seen with
  | (bs, seen2, err) => ({ batches := st.batches ++ bs, seen := seen2 }, err)

/-- The value-extraction rule asserted by claim C10: in the matching
`'> <'`-fragment, after deleting every `'$$$$'`, the value returned is all
the text after the key's marker line (after the first `'>\n'`) up to the
next `'> <'` marker or the end of the record, whitespace-stripped. -/
def propLoopClaimed (prop : List Char) : List (List Char) → Except PyError (Option (List Char))
  | [] => .ok none
  | el :: rest =>
    let cleaned := removeAll FastGrowWrapper.dollars el
    match splitFirst FastGrowWrapper.keyEnd cleaned with
    | none =>
      if pyStrip cleaned ≠ prop then propLoopClaimed prop rest
      else .error PyError.indexError
    | some (k, v) =>
      if pyStrip k ≠ prop then propLoopClaimed prop rest
      else .ok (some (pyStrip v))

/-- Claim C10's reading of `get_mol_string_prop` (without cast). -/
def get_mol_string_prop_claimed (prop mol : List Char) : Except PyError (Option (List Char)) :=
  propLoopClaimed prop (splitOnList FastGrowWrapper.blockMarker mol)

/-- The key of a `'> <'`-fragment: delete `'$$$$'`, split at `'>\n'`, strip
the first piece. -/
def blockKey (el : List Char) : List Char :=
  pyStrip ((splitOnList FastGrowWrapper.keyEnd (removeAll FastGrowWrapper.dollars el)).headD [])

/-- The value of a `'> <'`-fragment under the amended claim C10: delete
`'$$$$'`, split at every `'>\n'`, strip each piece, return the second piece
(the text between the key's marker line and the next `'>\n'` boundary), or
`IndexError` when there is none. -/
def blockValue (el : List Char) : Except PyError (List Char) :=
  match (splitOnList FastGrowWrapper.keyEnd (removeAll FastGrowWrapper.dollars el)).map pyStrip with
  | _ :: v :: _ => .ok v
  | _ => .error PyError.indexError

/-- The amended claim C10 as a declarative characterization: extraction
finds the first `'> <'`-fragment whose `blockKey` is the requested key and
returns its `blockValue`; `.ok none` when no fragment matches. -/
def get_mol_string_prop_byKey (prop mol : List Char) : Except PyError (Option (List Char)) :=
  match (splitOnList FastGrowWrapper.blockMarker mol).find? (fun el => blockKey el == prop) with
  | none => .ok none
  | some el => Except.map some (blockValue el)

/-! ### Concrete runs used by counterexamples and witnesses -/

/-- A growing whose ensemble has a single member. -/
def exGrowing1 : Growing := { memberNames := ["default".data] }

/-- A growing whose ensemble has two members with lowercase names. -/
def exGrowing2 : Growing := { memberNames := ["m1".data, "m2".data] }

/-- A well-formed one-record result file. -/
def exGoodFile : File :=
  { path := "good.sdf".data, content := "GOOD\n> <Score>\n12.5\n$$$$\n".data }

/-- A result file whose record carries the unparsable score text `n/a`. -/
def exBadFile : File :=
  { path := "bad.sdf".data, content := "BAD\n> <Score>\nn/a\n$$$$\n".data }

/-- The hit `add_hits` builds from `exGoodFile` under `exGrowing1`. -/
def exGoodHit : Hit :=
  { name := "GOOD".data
    score := some ⟨125, -1⟩
    file_string := "GOOD\n> <Score>\n12.5\n$$$$\n".data
    file_type := "sdf".data
    ensemble_scores := [] }

/-- A run with no result files whose process is killed by a signal
(`returncode = -9`). -/
def exEnvSignal : Env := { runListings := [[]], drainListing := [], returncode := -9 }

/-- A run with no result files exiting with code 0. -/
def exEnvOk : Env := { runListings := [[]], drainListing := [], returncode := 0 }

/-- A run with no result files exiting with code 1. -/
def exEnvFail : Env := { runListings := [[]], drainListing := [], returncode := 1 }

/-- A record whose `K` property value itself contains a `'>\n'` boundary. -/
def exMolTricky : List Char := "t\n> <K>\nv1>\nv2\n$$$$\n".data

/-- A record carrying a score and lowercase-named per-member properties. -/
def exMolEnsemble : List Char :=
  "HIT\n> <Score>\n1.5\n> <m1>\n1.5\n> <m2>\n2.5\n$$$$\n".data

/-! ### String-layer lemmas -/

theorem leadsWith_iff (p : List Char) : ∀ s, leadsWith p s = true ↔ ∃ t, s = p ++ t := by
  induction p with
  | nil => intro s; simp [leadsWith]
  | cons a ps ih =>
    intro s
    cases s with
    | nil => simp [leadsWith]
    | cons c cs =>
      simp only [leadsWith, Bool.and_eq_true, beq_iff_eq]
      constructor
      · rintro ⟨hac, h⟩
        obtain ⟨t, ht⟩ := (ih cs).1 h
        subst hac
        subst ht
        exact ⟨t, rfl⟩
      · rintro ⟨t, ht⟩
        have ht2 : c :: cs = a :: (ps ++ t) := ht
        injection ht2 with h1 h2
        exact ⟨h1.symm, (ih cs).2 ⟨t, h2⟩⟩

theorem splitFirst_decompose (sep : List Char) :
    ∀ s pre post, splitFirst sep s = some (pre, post) → s = pre ++ (sep ++ post) := by
  intro s
  induction s with
  | nil => intro pre post h; simp [splitFirst] at h
  | cons c rest ih =>
    intro pre post h
    simp only [splitFirst] at h
    split at h
    · rename_i hl
      obtain ⟨t, ht⟩ := (leadsWith_iff sep (c :: rest)).1 hl
      simp only [Option.some.injEq, Prod.mk.injEq] at h
      obtain ⟨hpre, hpost⟩ := h
      subst hpre
      subst hpost
      rw [List.nil_append, ht, List.drop_left]
    · rename_i hl
      cases hrec : splitFirst sep rest with
      | none => rw [hrec] at h; exact absurd h (by simp)
      | some pp =>
        obtain ⟨pre2, post2⟩ := pp
        rw [hrec] at h
        simp only [Option.some.injEq, Prod.mk.injEq] at h
        obtain ⟨hpre, hpost⟩ := h
        have hrest := ih pre2 post2 hrec
        rw [← hpre, ← hpost, List.cons_append, ← hrest]

theorem splitFirst_length (sep : List Char) (hsep : sep ≠ []) (s pre post : List Char)
    (h : splitFirst sep s = some (pre, post)) : post.length < s.length := by
  have hd := splitFirst_decompose sep s pre post h
  have hsl : 0 < sep.length := List.length_pos.2 hsep
  rw [hd]
  simp only [List.length_append]
  omega

theorem splitIter_irrel (sep : List Char) (hsep : sep ≠ []) :
    ∀ f1 f2 s, s.length ≤ f1 → s.length ≤ f2 → splitIter sep f1 s = splitIter sep f2 s := by
  intro f1
  induction f1 with
  | zero =>
    intro f2 s h1 _h2
    have hs : s = [] := List.length_eq_zero.1 (Nat.le_zero.1 h1)
    subst hs
    cases f2 with
    | zero => rfl
    | succ f2 => simp [splitIter, splitFirst]
  | succ f1 ih =>
    intro f2 s h1 h2
    cases f2 with
    | zero =>
      have hs : s = [] := List.length_eq_zero.1 (Nat.le_zero.1 h2)
      subst hs
      simp [splitIter, splitFirst]
    | succ f2 =>
      cases hsf : splitFirst sep s with
      | none => simp [splitIter, hsf]
      | some pp =>
        obtain ⟨pre, post⟩ := pp
        have hlt := splitFirst_length sep hsep s pre post hsf
        unfold splitIter
        rw [hsf]
        show pre :: splitIter sep f1 post = pre :: splitIter sep f2 post
        rw [ih f2 post (by omega) (by omega)]

theorem splitOnList_of_none (sep s : List Char) (h : splitFirst sep s = none) :
    splitOnList sep s = [s] := by
  unfold splitOnList
  cases hl : s.length with
  | zero => rfl
  | succ n => simp [splitIter, h]

theorem splitOnList_of_some (sep : List Char) (hsep : sep ≠ []) (s pre post : List Char)
    (h : splitFirst sep s = some (pre, post)) :
    splitOnList sep s = pre :: splitOnList sep post := by
  unfold splitOnList
  have hlt := splitFirst_length sep hsep s pre post h
  cases hl : s.length with
  | zero =>
    have hs : s = [] := List.length_eq_zero.1 hl
    subst hs
    simp [splitFirst] at h
  | succ n =>
    simp only [splitIter, h]
    rw [splitIter_irrel sep hsep n post.length post (by omega) le_rfl]

theorem splitOnList_ne_nil (sep s : List Char) : splitOnList sep s ≠ [] := by
  unfold splitOnList
  cases s.length with
  | zero => simp [splitIter]
  | succ n =>
    cases h : splitFirst sep s with
    | none => simp [splitIter, h]
    | some pp => obtain ⟨pre, post⟩ := pp; simp [splitIter, h]

theorem joinSep_splitOnList_aux (sep : List Char) (hsep : sep ≠ []) :
    ∀ n s, s.length ≤ n → joinSep sep (splitOnList sep s) = s := by
  intro n
  induction n with
  | zero =>
    intro s h
    have hs : s = [] := List.length_eq_zero.1 (Nat.le_zero.1 h)
    subst hs
    rw [splitOnList_of_none sep [] rfl]
    rfl
  | succ n ih =>
    intro s h
    cases hsf : splitFirst sep s with
    | none => rw [splitOnList_of_none sep s hsf]; rfl
    | some pp =>
      obtain ⟨pre, post⟩ := pp
      rw [splitOnList_of_some sep hsep s pre post hsf]
      have hdec := splitFirst_decompose sep s pre post hsf
      have hlen := splitFirst_length sep hsep s pre post hsf
      have hih := ih post (by omega)
      obtain ⟨x, xs, hx⟩ : ∃ x xs, splitOnList sep post = x :: xs := by
        cases hsp : splitOnList sep post with
        | nil => exact absurd hsp (splitOnList_ne_nil sep post)
        | cons x xs => exact ⟨x, xs, rfl⟩
      rw [hx] at hih
      rw [hx]
      show pre ++ sep ++ joinSep sep (x :: xs) = s
      rw [List.append_assoc, hih, hdec]

/-- Rejoining the fragments of `splitOnList` with the separator restores the
original string: `splitOnList` is exactly the decomposition of a string at
the occurrences of the separator. -/
theorem joinSep_splitOnList (sep s : List Char) (hsep : sep ≠ []) :
    joinSep sep (splitOnList sep s) = s :=
  joinSep_splitOnList_aux sep hsep s.length s le_rfl

theorem dropWhile_all_iff (p : Char → Bool) (l : List Char) :
    (∀ x ∈ l.dropWhile p, p x = true) ↔ ∀ x ∈ l, p x = true := by
  induction l with
  | nil => simp
  | cons a t ih =>
    by_cases h : p a = true
    · rw [List.dropWhile_cons_of_pos h]
      simp only [List.mem_cons]
      constructor
      · intro hall x hx
        rcases hx with rfl | hx
        · exact h
        · exact ih.1 hall x hx
      · intro hall x hx
        exact ih.2 (fun y hy => hall y (Or.inr hy)) x hx
    · rw [List.dropWhile_cons_of_neg h]

theorem pyStrip_eq_nil_iff (s : List Char) : pyStrip s = [] ↔ ∀ c ∈ s, pyWs c = true := by
  unfold pyStrip
  rw [List.reverse_eq_nil_iff, List.dropWhile_eq_nil_iff]
  simp only [List.mem_reverse]
  exact dropWhile_all_iff pyWs s

/-! ### Pipeline-layer lemmas -/

section PipelineLemmas

open FastGrowWrapper

theorem makeHit_ok (g : Growing) (mol : List Char) (h : Hit)
    (hm : makeHit g mol = .ok h) :
    h.name = (get_mol_string_name mol).take 254
      ∧ h.file_string = mol
      ∧ h.file_type = sdfTag
      ∧ get_mol_string_prop_float scoreKey mol = .ok h.score
      ∧ ensembleScores g mol = .ok h.ensemble_scores := by
  unfold makeHit at hm
  cases hsc : get_mol_string_prop_float scoreKey mol with
  | error e => rw [hsc] at hm; exact absurd hm (by simp)
  | ok sc =>
    rw [hsc] at hm
    cases hes : ensembleScores g mol with
    | error e => rw [hes] at hm; exact absurd hm (by simp)
    | ok es =>
      rw [hes] at hm
      simp only [Except.ok.injEq] at hm
      subst hm
      exact ⟨rfl, rfl, rfl, rfl, rfl⟩

theorem scoresFor_ok (mol : List Char) :
    ∀ ns l, scoresFor mol ns = .ok l →
      l.map Prod.fst = ns
        ∧ ∀ p ∈ l, get_mol_string_prop_float (pyUpper p.1) mol = .ok p.2 := by
  intro ns
  induction ns with
  | nil =>
    intro l h
    simp only [scoresFor, Except.ok.injEq] at h
    subst h
    simp
  | cons n ns ih =>
    intro l h
    simp only [scoresFor] at h
    cases hv : get_mol_string_prop_float (pyUpper n) mol with
    | error e => rw [hv] at h; exact absurd h (by simp)
    | ok v =>
      rw [hv] at h
      cases ht : scoresFor mol ns with
      | error e => rw [ht] at h; exact absurd h (by simp)
      | ok t =>
        rw [ht] at h
        simp only [Except.ok.injEq] at h
        subst h
        obtain ⟨h1, h2⟩ := ih t ht
        refine ⟨by simp [h1], ?_⟩
        intro p hp
        rcases List.mem_cons.1 hp with rfl | hp2
        · exact hv
        · exact h2 p hp2

theorem hitsFor_ok (g : Growing) :
    ∀ ms hits, hitsFor g ms = .ok hits →
      hits.map Hit.name = ms.map (fun m => (get_mol_string_name m).take 254)
        ∧ ∀ h ∈ hits, ∃ m ∈ ms, makeHit g m = .ok h := by
  intro ms
  induction ms with
  | nil =>
    intro hits h
    simp only [hitsFor, Except.ok.injEq] at h
    subst h
    simp
  | cons m ms ih =>
    intro hits h
    simp only [hitsFor] at h
    cases hmk : makeHit g m with
    | error e => rw [hmk] at h; exact absurd h (by simp)
    | ok h0 =>
      rw [hmk] at h
      cases ht : hitsFor g ms with
      | error e => rw [ht] at h; exact absurd h (by simp)
      | ok t =>
        rw [ht] at h
        simp only [Except.ok.injEq] at h
        subst h
        obtain ⟨h1, h2⟩ := ih t ht
        constructor
        · simp only [List.map_cons, h1, (makeHit_ok g m h0 hmk).1]
        · intro hh hhm
          rcases List.mem_cons.1 hhm with rfl | hm2
          · exact ⟨m, List.mem_cons_self m ms, hmk⟩
          · obtain ⟨m2, hm2m, hm2k⟩ := h2 hh hm2
            exact ⟨m2, List.mem_cons_of_mem m hm2m, hm2k⟩

theorem hitsFor_error_of_mem (g : Growing) :
    ∀ ms m, m ∈ ms → (∃ e, makeHit g m = .error e) →
      ∃ e2, hitsFor g ms = .error e2 := by
  intro ms
  induction ms with
  | nil => intro m hm; simp at hm
  | cons m0 ms ih =>
    intro m hm he
    rcases List.mem_cons.1 hm with rfl | hm2
    · obtain ⟨e, he⟩ := he
      exact ⟨e, by simp [hitsFor, he]⟩
    · cases hmk : makeHit g m0 with
      | error e => exact ⟨e, by simp [hitsFor, hmk]⟩
      | ok h0 =>
        obtain ⟨e2, h2⟩ := ih m hm2 he
        exact ⟨e2, by simp [hitsFor, hmk, h2]⟩

theorem processFiles_spec (g : Growing) :
    ∀ files seen,
      (processFiles g files seen).2.1
          = seen ++ ((processFiles g files seen).1).map Prod.fst
        ∧ (((processFiles g files seen).1).map Prod.fst).Nodup
        ∧ ∀ p ∈ ((processFiles g files seen).1).map Prod.fst, p ∉ seen := by
  intro files
  induction files with
  | nil => intro seen; simp [processFiles]
  | cons f rest ih =>
    intro seen
    by_cases hseen : f.path ∈ seen
    · simp only [processFiles, if_pos hseen]
      exact ih seen
    · simp only [processFiles, if_neg hseen]
      cases hadd : add_hits g f.content with
      | error e => simp
      | ok hits =>
        obtain ⟨h1, h2, h3⟩ := ih (seen ++ [f.path])
        rcases hpr : processFiles g rest (seen ++ [f.path]) with ⟨bs, seen2, err⟩
        rw [hpr] at h1 h2 h3
        simp only at h1 h2 h3
        refine ⟨?_, ?_, ?_⟩
        · show seen2 = seen ++ (f.path :: bs.map Prod.fst)
          rw [h1, List.append_assoc]
          rfl
        · show (f.path :: bs.map Prod.fst).Nodup
          rw [List.nodup_cons]
          refine ⟨fun hin => ?_, h2⟩
          exact h3 f.path hin (by simp)
        · intro p hp
          show p ∉ seen
          rcases List.mem_cons.1 hp with rfl | hp2
          · exact hseen
          · intro hps
            exact h3 p hp2 (List.mem_append_left _ hps)

theorem processFiles_error_of_mem (g : Growing) :
    ∀ files seen f, (files.map File.path).Nodup → f ∈ files → f.path ∉ seen →
      (∃ e, add_hits g f.content = .error e) →
      (processFiles g files seen).2.2.isSome = true := by
  intro files
  induction files with
  | nil => intro seen f _ hf; simp at hf
  | cons f0 rest ih =>
    intro seen f hnd hf hns he
    have hndt : (rest.map File.path).Nodup := (List.nodup_cons.1 hnd).2
    rcases List.mem_cons.1 hf with rfl | hf2
    · simp only [processFiles, if_neg hns]
      obtain ⟨e, he⟩ := he
      rw [he]
      simp
    · by_cases h0 : f0.path ∈ seen
      · simp only [processFiles, if_pos h0]
        exact ih seen f hndt hf2 hns he
      · simp only [processFiles, if_neg h0]
        cases hadd : add_hits g f0.content with
        | error e => simp
        | ok hits =>
          have hfp : f.path ≠ f0.path := by
            have hnotin : f0.path ∉ rest.map File.path := (List.nodup_cons.1 hnd).1
            intro hq
            exact hnotin (hq ▸ List.mem_map_of_mem File.path hf2)
          have hns2 : f.path ∉ seen ++ [f0.path] := by
            intro hmem
            rcases List.mem_append.1 hmem with hmem1 | hmem2
            · exact hns hmem1
            · exact hfp (List.mem_singleton.1 hmem2)
          have hrec := ih (seen ++ [f0.path]) f hndt hf2 hns2 he
          rcases hpr : processFiles g rest (seen ++ [f0.path]) with ⟨bs, seen2, err⟩
          rw [hpr] at hrec
          simp only at hrec
          simpa using hrec

theorem process_hits_spec (g : Growing) (l : List File) (st : LoopState) :
    ∃ nb, ((process_hits g l st).1).batches = st.batches ++ nb
      ∧ (nb.map Prod.fst).Nodup
      ∧ (∀ p ∈ nb.map Prod.fst, p ∉ st.seen)
      ∧ (∀ p ∈ nb.map Prod.fst, p ∈ ((process_hits g l st).1).seen)
      ∧ ∃ ns, ((process_hits g l st).1).seen = st.seen ++ ns := by
  obtain ⟨h1, h2, h3⟩ := processFiles_spec g l st.seen
  rcases hpr : processFiles g l st.seen with ⟨bs, seen2, err⟩
  rw [hpr] at h1 h2 h3
  simp only at h1 h2 h3
  cases err with
  | none =>
    refine ⟨bs, ?_, h2, h3, ?_, ⟨bs.map Prod.fst, ?_⟩⟩
    · simp [process_hits, hpr]
    · intro p hp
      show p ∈ ((process_hits g l st).1).seen
      have : ((process_hits g l st).1).seen = seen2 := by simp [process_hits, hpr]
      rw [this, h1]
      exact List.mem_append_right _ hp
    · simp [process_hits, hpr, h1]
  | some e =>
    refine ⟨[], ?_, by simp, by simp, by simp, ⟨bs.map Prod.fst, ?_⟩⟩
    · simp [process_hits, hpr]
    · simp [process_hits, hpr, h1]

theorem process_hits_error_batches (g : Growing) (l : List File) (st : LoopState) (e : PyError)
    (h : (process_hits g l st).2 = some e) :
    ((process_hits g l st).1).batches = st.batches := by
  unfold process_hits at h ⊢
  rcases hpr : processFiles g l st.seen with ⟨bs, seen2, err⟩
  rw [hpr] at h
  cases err with
  | none => exact Option.noConfusion h
  | some e2 => rfl

theorem runCycles_cons (g : Growing) (l : List File) (ls : List (List File)) (st : LoopState) :
    runCycles g (l :: ls) st
      = match process_hits g l st with
        | (st2, none) => runCycles g ls st2
        | (st2, some e) => (st2, some e) := rfl

theorem runCycles_append (g : Growing) :
    ∀ xs ys st, runCycles g (xs ++ ys) st
      = match runCycles g xs st with
        | (st2, none) => runCycles g ys st2
        | (st2, some e) => (st2, some e) := by
  intro xs
  induction xs with
  | nil => intro ys st; rfl
  | cons l ls ih =>
    intro ys st
    rw [List.cons_append, runCycles_cons, runCycles_cons]
    rcases hph : process_hits g l st with ⟨st2, err⟩
    cases err with
    | none =>
      show runCycles g (ls ++ ys) st2 = _
      rw [ih ys st2]
    | some e => rfl

theorem runCycles_singleton (g : Growing) (l : List File) (st : LoopState) :
    runCycles g [l] st = process_hits g l st := by
  rw [runCycles_cons]
  rcases hph : process_hits g l st with ⟨st2, err⟩
  cases err with
  | none => rfl
  | some e => rfl

theorem runCycles_inv (g : Growing) :
    ∀ ls st,
      (st.batches.map Prod.fst).Nodup →
      (∀ p ∈ st.batches.map Prod.fst, p ∈ st.seen) →
      ((((runCycles g ls st).1).batches.map Prod.fst).Nodup
        ∧ ∀ p ∈ ((runCycles g ls st).1).batches.map Prod.fst,
            p ∈ ((runCycles g ls st).1).seen) := by
  intro ls
  induction ls with
  | nil => intro st h1 h2; exact ⟨h1, h2⟩
  | cons l ls ih =>
    intro st h1 h2
    obtain ⟨nb, hb, hnd, hnotseen, hinseen, ns, hs⟩ := process_hits_spec g l st
    rw [runCycles_cons]
    rcases hph : process_hits g l st with ⟨st2, err⟩
    rw [hph] at hb hinseen hs
    simp only at hb hinseen hs
    have hstep1 : (st2.batches.map Prod.fst).Nodup := by
      rw [hb, List.map_append, List.nodup_append]
      refine ⟨h1, hnd, ?_⟩
      intro p hp hp2
      exact hnotseen p hp2 (h2 p hp)
    have hstep2 : ∀ p ∈ st2.batches.map Prod.fst, p ∈ st2.seen := by
      intro p hp
      rw [hb, List.map_append] at hp
      rcases List.mem_append.1 hp with hp1 | hp2
      · rw [hs]
        exact List.mem_append_left _ (h2 p hp1)
      · exact hinseen p hp2
    cases err with
    | none => exact ih st2 hstep1 hstep2
    | some e => exact ⟨hstep1, hstep2⟩

theorem growIngest_eq_runCycles (g : Growing) (env : Env) :
    growIngest g env
      = runCycles g (env.runListings ++ [env.drainListing]) initState := by
  unfold growIngest
  rw [runCycles_append]
  rcases h : runCycles g env.runListings initState with ⟨st, err⟩
  cases err with
  | none =>
    show process_hits g env.drainListing st = runCycles g [env.drainListing] st
    rw [runCycles_singleton]
  | some e => rfl

end PipelineLemmas

/-- A fragment survives the `if m.strip()` filter of `add_hits` exactly when
it contains a non-whitespace character. -/
theorem strip_isEmpty_any (m : List Char) :
    (!(pyStrip m).isEmpty) = m.any (fun c => !(pyWs c)) := by
  cases h : m.any (fun c => !(pyWs c)) with
  | false =>
    have hall : ∀ c ∈ m, pyWs c = true := by
      intro c hc
      have := List.any_eq_false.1 h c hc
      simpa using this
    have hnil : pyStrip m = [] := (pyStrip_eq_nil_iff m).2 hall
    simp [hnil]
  | true =>
    obtain ⟨c, hc, hnc⟩ := List.any_eq_true.1 h
    have hne : pyStrip m ≠ [] := by
      intro hnil
      have := (pyStrip_eq_nil_iff m).1 hnil c hc
      simp [this] at hnc
    simp [List.isEmpty_iff, hne]

section PropLemmas

open FastGrowWrapper

theorem blockKey_eq_pair_head (el : List Char) :
    ((splitOnList keyEnd (removeAll dollars el)).map pyStrip).headD []
      = blockKey el := by
  unfold blockKey
  cases hsp : splitOnList keyEnd (removeAll dollars el) with
  | nil => exact absurd hsp (splitOnList_ne_nil _ _)
  | cons x xs => simp

theorem propLoop_none (prop : List Char) :
    ∀ els, (∀ el ∈ els, blockKey el ≠ prop) → propLoop prop els = .ok none := by
  intro els
  induction els with
  | nil => intro; rfl
  | cons el rest ih =>
    intro hall
    have hkey : blockKey el ≠ prop := hall el (List.mem_cons_self el rest)
    simp only [propLoop]
    rw [blockKey_eq_pair_head el, if_pos hkey]
    exact ih (fun e he => hall e (List.mem_cons_of_mem el he))

theorem propLoop_eq_byKey (prop : List Char) :
    ∀ els, propLoop prop els
      = match els.find? (fun el => blockKey el == prop) with
        | none => .ok none
        | some el => Except.map some (blockValue el) := by
  intro els
  induction els with
  | nil => rfl
  | cons el rest ih =>
    by_cases hk : blockKey el = prop
    · rw [List.find?_cons_of_pos _ (by simpa using hk)]
      simp only [propLoop]
      rw [blockKey_eq_pair_head el, if_neg (by simpa using hk)]
      unfold blockValue
      cases hsp : splitOnList keyEnd (removeAll dollars el) with
      | nil => exact absurd hsp (splitOnList_ne_nil _ _)
      | cons x xs =>
        cases xs with
        | nil => rfl
        | cons y ys => rfl
    · rw [List.find?_cons_of_neg _ (by simpa using hk)]
      simp only [propLoop]
      rw [blockKey_eq_pair_head el, if_pos hk]
      exact ih

end PropLemmas

/-! ### Claims -/

/-- C8: for every file text, splitting produces exactly the
delimiter-separated fragments that contain at least one non-whitespace
character, each with the delimiter line re-appended as its suffix;
fragments that are empty or consist only of whitespace are discarded, so a
trailing delimiter never yields a spurious empty record.  (The last
conjunct certifies that `splitOnList` really is the decomposition of the
text at the delimiter occurrences.) -/
theorem C8_split_records (data : List Char) :
    FastGrowWrapper.splitRecords data
        = ((splitOnList FastGrowWrapper.recordDelim data).filter
            (fun m => m.any (fun c => !(pyWs c)))).map
            (fun m => m ++ FastGrowWrapper.recordDelim)
      ∧ (∀ r ∈ FastGrowWrapper.splitRecords data,
          (∃ t, r = t ++ FastGrowWrapper.recordDelim) ∧ ∃ c ∈ r, pyWs c = false)
      ∧ joinSep FastGrowWrapper.recordDelim
          (splitOnList FastGrowWrapper.recordDelim data) = data := by
  refine ⟨?_, ?_, joinSep_splitOnList _ data (by decide)⟩
  · unfold FastGrowWrapper.splitRecords
    congr 1
    apply List.filter_congr
    intro m _
    exact strip_isEmpty_any m
  · intro r hr
    unfold FastGrowWrapper.splitRecords at hr
    obtain ⟨m, hm, rfl⟩ := List.mem_map.1 hr
    have hmf := List.mem_filter.1 hm
    refine ⟨⟨m, rfl⟩, ?_⟩
    have hne : pyStrip m ≠ [] := by
      intro hnil
      have h2 := hmf.2
      rw [hnil] at h2
      simp at h2
    have hex : ∃ c ∈ m, pyWs c = false := by
      by_contra hall
      push_neg at hall
      apply hne
      apply (pyStrip_eq_nil_iff m).2
      intro c hc
      cases hw : pyWs c with
      | false => exact absurd hw (hall c hc)
      | true => rfl
    obtain ⟨c, hc, hcw⟩ := hex
    exact ⟨c, List.mem_append_left _ hc, hcw⟩

/-- Witness for C8 at a file text consisting of one record closed by a
trailing delimiter: the single produced record is delimiter-terminated and
contains a non-whitespace character. -/
theorem C8_witness :
    (∃ t, "A\nx\n$$$$\n".data = t ++ FastGrowWrapper.recordDelim)
      ∧ ∃ c ∈ "A\nx\n$$$$\n".data, pyWs c = false :=
  (C8_split_records "A\nx\n$$$$\n".data).2.1 "A\nx\n$$$$\n".data (by decide)

/-- C9: for every record of a successfully ingested file, the extracted
name is the record's first line trimmed of surrounding whitespace, and the
name stored on the persisted hit is that trimmed string truncated to its
first 254 characters (so no stored name exceeds 254 characters; a record
whose trimmed first line is longer persists exactly the first 254 of its
characters). -/
theorem C9_names (g : Growing) (content : List Char) (hits : List Hit)
    (h : FastGrowWrapper.add_hits g content = .ok hits) :
    hits.map Hit.name
        = (FastGrowWrapper.splitRecords content).map
            (fun mol => (FastGrowWrapper.get_mol_string_name mol).take 254)
      ∧ (∀ hit ∈ hits, hit.name.length ≤ 254)
      ∧ ∀ mol : List Char,
          FastGrowWrapper.get_mol_string_name mol
            = pyStrip ((splitOnList FastGrowWrapper.newlineSep mol).headD []) := by
  have h1 := (hitsFor_ok g (FastGrowWrapper.splitRecords content) hits h).1
  refine ⟨h1, ?_, fun mol => rfl⟩
  intro hit hh
  have hmem : hit.name ∈ hits.map Hit.name := List.mem_map_of_mem Hit.name hh
  rw [h1] at hmem
  obtain ⟨mol, _, heq⟩ := List.mem_map.1 hmem
  rw [← heq, List.length_take]
  omega

/-- Witness for C9 on a concrete one-record file. -/
theorem C9_witness :
    [exGoodHit].map Hit.name
        = (FastGrowWrapper.splitRecords exGoodFile.content).map
            (fun mol => (FastGrowWrapper.get_mol_string_name mol).take 254)
      ∧ (∀ hit ∈ [exGoodHit], hit.name.length ≤ 254)
      ∧ ∀ mol : List Char,
          FastGrowWrapper.get_mol_string_name mol
            = pyStrip ((splitOnList FastGrowWrapper.newlineSep mol).headD []) :=
  C9_names exGrowing1 exGoodFile.content [exGoodHit] (by decide)

/-- C3: after the polling loop ends, the run performs exactly one more full
scan-and-ingest pass (the drain) before the exit code is examined: the
ingestion phase equals the uniform cycle fold over the loop listings plus
exactly one drain listing; the final committed state of the whole run is
the post-drain state whatever the exit code decides; and the ingestion
phase is entirely independent of the exit code. -/
theorem C3_single_drain (g : Growing) (env : Env) :
    FastGrowWrapper.growIngest g env
        = FastGrowWrapper.runCycles g (env.runListings ++ [env.drainListing])
            FastGrowWrapper.initState
      ∧ (FastGrowWrapper.grow g env).1 = (FastGrowWrapper.growIngest g env).1
      ∧ ∀ c : Int,
          FastGrowWrapper.growIngest g { env with returncode := c }
            = FastGrowWrapper.growIngest g env := by
  refine ⟨growIngest_eq_runCycles g env, ?_, fun c => rfl⟩
  unfold FastGrowWrapper.grow
  rcases h : FastGrowWrapper.growIngest g env with ⟨st, err⟩
  cases err with
  | none =>
    by_cases hc : 0 < env.returncode <;> simp [hc]
  | some e => rfl

/-- C4: during one growing run the seen set only grows (each pass appends
to it and removes nothing); a path already in the seen set is never
ingested again (its presence in the committed batches after a pass implies
it was committed before the pass); and over a whole run every result file
path heads at most one committed batch. -/
theorem C4_exactly_once :
    (∀ (g : Growing) (l : List File) (st : LoopState),
        ∃ ns, ((FastGrowWrapper.process_hits g l st).1).seen = st.seen ++ ns)
      ∧ (∀ (g : Growing) (l : List File) (st : LoopState),
          ∃ nb, ((FastGrowWrapper.process_hits g l st).1).batches = st.batches ++ nb)
      ∧ (∀ (g : Growing) (l : List File) (st : LoopState) (p : List Char),
          p ∈ st.seen →
          p ∈ ((FastGrowWrapper.process_hits g l st).1).batches.map Prod.fst →
          p ∈ st.batches.map Prod.fst)
      ∧ (∀ (g : Growing) (env : Env),
          ((((FastGrowWrapper.growIngest g env).1).batches.map Prod.fst)).Nodup) := by
  refine ⟨?_, ?_, ?_, ?_⟩
  · intro g l st
    obtain ⟨nb, _, _, _, _, ns, hs⟩ := process_hits_spec g l st
    exact ⟨ns, hs⟩
  · intro g l st
    obtain ⟨nb, hb, _, _, _, _⟩ := process_hits_spec g l st
    exact ⟨nb, hb⟩
  · intro g l st p hseen hbat
    obtain ⟨nb, hb, _, hnot, _, _⟩ := process_hits_spec g l st
    rw [hb, List.map_append] at hbat
    rcases List.mem_append.1 hbat with hold | hnew
    · exact hold
    · exact absurd hseen (hnot p hnew)
  · intro g env
    rw [growIngest_eq_runCycles]
    exact (runCycles_inv g _ FastGrowWrapper.initState (by simp [FastGrowWrapper.initState])
      (by simp [FastGrowWrapper.initState])).1

/-- Witness for C4: a pass over a directory whose only file is already in
the seen set leaves the committed batches for that path exactly as they
were. -/
theorem C4_witness :
    "good.sdf".data
      ∈ (LoopState.mk [("good.sdf".data, [exGoodHit])] ["good.sdf".data]).batches.map Prod.fst :=
  C4_exactly_once.2.2.1 exGrowing1 [exGoodFile]
    (LoopState.mk [("good.sdf".data, [exGoodHit])] ["good.sdf".data])
    "good.sdf".data (by decide) (by decide)

/-- C1 counterexample: the claim says every nonzero exit code — including
negative, signal-terminated codes — raises an ExecutionError and sets
FAILURE; but a run whose process is killed by a signal (returncode -9)
raises nothing and is marked SUCCESS, because the source only checks
`returncode > 0`. -/
theorem C1_counterexample :
    exEnvSignal.returncode = -9
      ∧ Tasks.grow exGrowing1 exEnvSignal
        = { final := FastGrowWrapper.initState, error := none,
            status := Status.SUCCESS } := by
  decide

/-- C1 amended: in every run whose ingestion raises no error, exit codes 0
and below (including negative, signal-terminated codes) raise no error and
set SUCCESS, while every strictly positive exit code raises the
ExecutionError carrying that exit code and sets FAILURE. -/
theorem C1_exit_classification (g : Growing) (env : Env) (st : LoopState)
    (h : FastGrowWrapper.growIngest g env = (st, none)) :
    (0 < env.returncode →
        FastGrowWrapper.grow g env = (st, some (RunError.execution env.returncode))
          ∧ Tasks.grow g env
            = { final := st, error := some (RunError.execution env.returncode),
                status := Status.FAILURE })
      ∧ (env.returncode ≤ 0 →
          FastGrowWrapper.grow g env = (st, none)
            ∧ Tasks.grow g env
              = { final := st, error := none, status := Status.SUCCESS }) := by
  constructor
  · intro hc
    have hg : FastGrowWrapper.grow g env = (st, some (RunError.execution env.returncode)) := by
      unfold FastGrowWrapper.grow
      rw [h]
      simp [hc]
    refine ⟨hg, ?_⟩
    unfold Tasks.grow
    rw [hg]
  · intro hc
    have hg : FastGrowWrapper.grow g env = (st, none) := by
      unfold FastGrowWrapper.grow
      rw [h]
      simp [Int.not_lt.2 hc]
    refine ⟨hg, ?_⟩
    unfold Tasks.grow
    rw [hg]

/-- Witness for C1 on a run exiting with code 1: the ExecutionError carries
the exit code. -/
theorem C1_witness :
    FastGrowWrapper.grow exGrowing1 exEnvFail
      = (FastGrowWrapper.initState, some (RunError.execution 1)) :=
  ((C1_exit_classification exGrowing1 exEnvFail FastGrowWrapper.initState
    (by decide)).1 (by decide)).1

/-- C2 counterexample: two new files arrive in one poll cycle; the second
file's record fails the float cast.  The source commits nothing at all
(the transaction wraps the whole cycle), while the claim's per-file
transactions would keep the first file's hits visible. -/
theorem C2_counterexample :
    (FastGrowWrapper.process_hits exGrowing1 [exGoodFile, exBadFile]
        FastGrowWrapper.initState).1.batches = []
      ∧ (process_hits_perFile exGrowing1 [exGoodFile, exBadFile]
          FastGrowWrapper.initState).1.batches = [("good.sdf".data, [exGoodHit])]
      ∧ (FastGrowWrapper.process_hits exGrowing1 [exGoodFile, exBadFile]
          FastGrowWrapper.initState).2 = some (PyError.castError "n/a".data)
      ∧ ([] : List (List Char × List Hit)) ≠ [("good.sdf".data, [exGoodHit])] := by
  decide

/-- C2 amended: persistence is atomic per scan pass, not per file: when any
hit of any file in a pass fails to parse, cast or store, no hit from ANY
file of that pass becomes visible (the whole pass's transaction rolls
back), while the batches committed by earlier passes always remain. -/
theorem C2_cycle_atomic :
    (∀ (g : Growing) (l : List File) (st : LoopState) (e : PyError),
        (FastGrowWrapper.process_hits g l st).2 = some e →
        ((FastGrowWrapper.process_hits g l st).1).batches = st.batches)
      ∧ (∀ (g : Growing) (ls : List (List File)) (st : LoopState),
          ∃ nb, ((FastGrowWrapper.runCycles g ls st).1).batches = st.batches ++ nb) := by
  constructor
  · exact fun g l st e h => process_hits_error_batches g l st e h
  · intro g ls st
    induction ls generalizing st with
    | nil => exact ⟨[], by simp [FastGrowWrapper.runCycles]⟩
    | cons l ls ih =>
      rw [runCycles_cons]
      obtain ⟨nb, hb, _, _, _, _⟩ := process_hits_spec g l st
      rcases hph : FastGrowWrapper.process_hits g l st with ⟨st2, err⟩
      rw [hph] at hb
      simp only at hb
      cases err with
      | none =>
        obtain ⟨nb2, hb2⟩ := ih st2
        exact ⟨nb ++ nb2, by rw [hb2, hb, List.append_assoc]⟩
      | some e => exact ⟨nb, hb⟩

/-- Witness for C2 on the failing two-file pass: the rollback leaves the
committed batches exactly as they were before the pass. -/
theorem C2_witness :
    ((FastGrowWrapper.process_hits exGrowing1 [exGoodFile, exBadFile]
        FastGrowWrapper.initState).1).batches = FastGrowWrapper.initState.batches :=
  C2_cycle_atomic.1 exGrowing1 [exGoodFile, exBadFile] FastGrowWrapper.initState
    (PyError.castError "n/a".data) (by decide)

/-- C5 counterexample: the claim says every run sets the status to RUNNING
before the polling loop; but in a concrete successful run the only status
ever written is SUCCESS — RUNNING is never written. -/
theorem C5_counterexample :
    Status.RUNNING ∉ Tasks.statusWrites exGrowing1 exEnvOk
      ∧ Tasks.statusWrites exGrowing1 exEnvOk = [Status.SUCCESS] := by
  decide

/-- C5 amended: the grow task never writes RUNNING (or PENDING); it writes
the status exactly once, at completion — SUCCESS when the wrapper returned
normally and FAILURE when an error was raised — so the observed sequence is
the job's initial status followed directly by the terminal one. -/
theorem C5_status_writes (g : Growing) (env : Env) :
    (Tasks.statusWrites g env).contains Status.RUNNING = false
      ∧ (Tasks.statusWrites g env).contains Status.PENDING = false
      ∧ Tasks.statusWrites g env
          = [if ((FastGrowWrapper.grow g env).2).isNone then Status.SUCCESS
             else Status.FAILURE] := by
  unfold Tasks.statusWrites Tasks.grow
  rcases h : FastGrowWrapper.grow g env with ⟨st, err⟩
  cases err with
  | none => exact ⟨rfl, rfl, by simp⟩
  | some e => exact ⟨rfl, rfl, by simp⟩

/-- C6: for every record and property key, extraction returns nothing when
the key is absent from every candidate block (absence alone raises no
error); when the float caster is supplied and the key's textual value is
not a valid lexical numeric literal, extraction fails with a cast error;
a record whose Score value fails the cast makes its whole file's ingestion
fail; and a failing new file aborts the pass it is in with the committed
batches unchanged, so nothing from that file is persisted. -/
theorem C6_cast_errors :
    (∀ prop mol : List Char,
        (∀ el ∈ splitOnList FastGrowWrapper.blockMarker mol, blockKey el ≠ prop) →
        FastGrowWrapper.get_mol_string_prop_float prop mol = .ok none)
      ∧ (∀ prop mol v : List Char,
          FastGrowWrapper.get_mol_string_prop prop mol = .ok (some v) →
          pyParseFloat v = none →
          FastGrowWrapper.get_mol_string_prop_float prop mol
            = .error (PyError.castError v))
      ∧ (∀ (g : Growing) (content : List Char),
          (∃ mol ∈ FastGrowWrapper.splitRecords content, ∃ v,
              FastGrowWrapper.get_mol_string_prop FastGrowWrapper.scoreKey mol
                  = .ok (some v)
                ∧ pyParseFloat v = none) →
          ∃ e, FastGrowWrapper.add_hits g content = .error e)
      ∧ (∀ (g : Growing) (l : List File) (st : LoopState) (f : File),
          (l.map File.path).Nodup → f ∈ l → f.path ∉ st.seen →
          (∃ e, FastGrowWrapper.add_hits g f.content = .error e) →
          ((FastGrowWrapper.process_hits g l st).2).isSome = true
            ∧ ((FastGrowWrapper.process_hits g l st).1).batches = st.batches) := by
  have hcast : ∀ prop mol v : List Char,
      FastGrowWrapper.get_mol_string_prop prop mol = .ok (some v) →
      pyParseFloat v = none →
      FastGrowWrapper.get_mol_string_prop_float prop mol
        = .error (PyError.castError v) := by
    intro prop mol v hraw hparse
    unfold FastGrowWrapper.get_mol_string_prop_float
    rw [hraw]
    show (match pyParseFloat v with
      | none => Except.error (PyError.castError v)
      | some q => Except.ok (some q)) = Except.error (PyError.castError v)
    rw [hparse]
  refine ⟨?_, hcast, ?_, ?_⟩
  · intro prop mol hall
    unfold FastGrowWrapper.get_mol_string_prop_float
    rw [show FastGrowWrapper.get_mol_string_prop prop mol = .ok none from
      propLoop_none prop _ hall]
  · intro g content ⟨mol, hmem, v, hraw, hparse⟩
    have hfl := hcast FastGrowWrapper.scoreKey mol v hraw hparse
    have hmk : FastGrowWrapper.makeHit g mol = .error (PyError.castError v) := by
      unfold FastGrowWrapper.makeHit
      rw [hfl]
    exact hitsFor_error_of_mem g (FastGrowWrapper.splitRecords content) mol hmem
      ⟨PyError.castError v, hmk⟩
  · intro g l st f hnd hf hns he
    have hsome := processFiles_error_of_mem g l st.seen f hnd hf hns he
    rcases hpr : FastGrowWrapper.processFiles g l st.seen with ⟨bs, seen2, err⟩
    rw [hpr] at hsome
    simp only at hsome
    cases err with
    | none => simp at hsome
    | some e2 =>
      refine ⟨?_, ?_⟩
      · simp [FastGrowWrapper.process_hits, hpr]
      · exact process_hits_error_batches g l st e2
          (by simp [FastGrowWrapper.process_hits, hpr])

/-- Witness for C6 on a directory pass whose single new file carries the
score text n/a: the pass raises and commits nothing. -/
theorem C6_witness :
    ((FastGrowWrapper.process_hits exGrowing1 [exBadFile]
        FastGrowWrapper.initState).2).isSome = true
      ∧ ((FastGrowWrapper.process_hits exGrowing1 [exBadFile]
          FastGrowWrapper.initState).1).batches
        = FastGrowWrapper.initState.batches :=
  C6_cast_errors.2.2.2 exGrowing1 [exBadFile] FastGrowWrapper.initState exBadFile
    (by decide) (by decide) (by decide)
    ⟨PyError.castError "n/a".data, by decide⟩

/-- C7 counterexample: the claim says each member's mapping entry is
populated with the float extracted from the block whose key is the member's
name; but with members named m1, m2 and blocks keyed m1, m2 the code stores
`none` for both (it extracts with the uppercased keys M1, M2), even though
a float is extractable at the member's own name. -/
theorem C7_counterexample :
    FastGrowWrapper.makeHit exGrowing2 exMolEnsemble
        = .ok { name := "HIT".data, score := some ⟨15, -1⟩,
                file_string := exMolEnsemble, file_type := "sdf".data,
                ensemble_scores := [("m1".data, none), ("m2".data, none)] }
      ∧ FastGrowWrapper.get_mol_string_prop_float "m1".data exMolEnsemble
          = .ok (some ⟨15, -1⟩)
      ∧ (some (⟨15, -1⟩ : PyFloat) : Option PyFloat) ≠ none := by
  decide

/-- C7 amended: if the ensemble has at most one member the persisted
mapping is empty; if it has more than one, the mapping has exactly one
entry per member, keyed by the member's name and populated with the
optional float extracted from the property block whose key is the member's
name converted to uppercase; and every persisted hit arises from one
record of its file. -/
theorem C7_ensemble_scores :
    (∀ (g : Growing) (mol : List Char) (hit : Hit),
        FastGrowWrapper.makeHit g mol = .ok hit →
        g.memberNames.length ≤ 1 → hit.ensemble_scores = [])
      ∧ (∀ (g : Growing) (mol : List Char) (hit : Hit),
          FastGrowWrapper.makeHit g mol = .ok hit →
          1 < g.memberNames.length →
          hit.ensemble_scores.map Prod.fst = g.memberNames
            ∧ ∀ p ∈ hit.ensemble_scores,
                FastGrowWrapper.get_mol_string_prop_float (pyUpper p.1) mol
                  = .ok p.2)
      ∧ (∀ (g : Growing) (content : List Char) (hits : List Hit),
          FastGrowWrapper.add_hits g content = .ok hits →
          ∀ hit ∈ hits, ∃ mol ∈ FastGrowWrapper.splitRecords content,
            FastGrowWrapper.makeHit g mol = .ok hit) := by
  refine ⟨?_, ?_, ?_⟩
  · intro g mol hit hm hlen
    have hes := (makeHit_ok g mol hit hm).2.2.2.2
    unfold FastGrowWrapper.ensembleScores at hes
    rw [if_neg (by omega)] at hes
    simpa using hes.symm
  · intro g mol hit hm hlen
    have hes := (makeHit_ok g mol hit hm).2.2.2.2
    unfold FastGrowWrapper.ensembleScores at hes
    rw [if_pos hlen] at hes
    exact scoresFor_ok mol g.memberNames hit.ensemble_scores hes
  · intro g content hits h hit hh
    exact (hitsFor_ok g _ hits h).2 hit hh

/-- Witness for C7 on the two-member ensemble record: the mapping is keyed
by the member names and each value is the extraction at the uppercased
name. -/
theorem C7_witness :
    ([(("m1".data : List Char), (none : Option PyFloat)), ("m2".data, none)].map Prod.fst
        = exGrowing2.memberNames)
      ∧ ∀ p ∈ [(("m1".data : List Char), (none : Option PyFloat)), ("m2".data, none)],
          FastGrowWrapper.get_mol_string_prop_float (pyUpper p.1) exMolEnsemble
            = .ok p.2 :=
  C7_ensemble_scores.2.1 exGrowing2 exMolEnsemble
    { name := "HIT".data, score := some ⟨15, -1⟩, file_string := exMolEnsemble,
      file_type := "sdf".data,
      ensemble_scores := [("m1".data, none), ("m2".data, none)] }
    (by decide) (by decide)

/-- C10 counterexample: the claim says the returned value is all the text
between the key's marker line and the next block marker (or the record
end), cleaned and stripped; but when that text itself contains a key/value
boundary, the code returns only the part before the boundary: here the code
yields v1 while the claim's rule yields the longer two-line text. -/
theorem C10_counterexample :
    FastGrowWrapper.get_mol_string_prop "K".data exMolTricky = .ok (some "v1".data)
      ∧ get_mol_string_prop_claimed "K".data exMolTricky
          = .ok (some "v1>\nv2".data)
      ∧ "v1".data ≠ "v1>\nv2".data := by
  decide

/-- C10 amended: extraction deletes every occurrence of the dollar
delimiter from each candidate block before comparing the key and before
extracting the value, and for the first block whose key matches it returns
the whitespace-stripped text between the key's marker line and the next
key/value boundary of the cleaned block (its second piece when split at
every such boundary), not the text extending to the next block marker. -/
theorem C10_value_extraction (prop mol : List Char) :
    FastGrowWrapper.get_mol_string_prop prop mol
      = get_mol_string_prop_byKey prop mol := by
  unfold FastGrowWrapper.get_mol_string_prop get_mol_string_prop_byKey
  exact propLoop_eq_byKey prop (splitOnList FastGrowWrapper.blockMarker mol)
